import Mathlib

/-!
Verification of the task-graph build engine (package `make`).

This file gives a shallow embedding of the package's data model and
operations, and proves properties of them:

* filesystem-dependent conditions (`Exists`/`Missing`/`Outdated`) are
  modelled over an abstract stat oracle `FS`: a path either stats
  successfully with a modification time, fails with a not-exist error, or
  fails with some other error (e.g. a permission error);
* the execution engine `run` (memoized post-order traversal over `Task`
  values) is modelled with an explicit cache of visited identity tags and an
  event trace recording every condition evaluation, command execution and
  function execution; `os.Exit(1)` on a failed command/function is modelled
  by the `fatal` result constructor, which the driver loop (`mainLoop`,
  from `Main`'s target loop) turns into exit code 1;
* `Getvar`'s mutable registry of variable defaults is modelled by explicit
  state passing, its `panic` by an `Option` result (`none` = panic);
* `validateTargets`' panics are likewise modelled by `Option`;
* the log-line quoting function `maybeQuote` and `Env.String` are modelled
  over character lists (faithful for ASCII arguments, where Go's byte
  indices coincide with character indices); Go's `strconv.Quote` is
  modelled for printable ASCII arguments (backslash and double-quote
  escaping), and Go's `sort.Strings` by insertion sort over the
  lexicographic order on strings.
-/

namespace Make

/-! ## Filesystem model and conditions -/

/-- Result of an `os.Stat` call on a path: success carrying the file's
modification time, a not-exist error, or any other error. -/
inductive StatResult where
  | ok (mtime : Int)
  | errNotExist
  | errOther
deriving DecidableEq

/-- An abstract filesystem: the behaviour of `os.Stat` on each path. -/
def FS : Type := String → StatResult

/-- Go `Exists`: `_, err := os.Stat(path); return err == nil || !os.IsNotExist(err)`. -/
def fileExists (fs : FS) (path : String) : Bool :=
  match fs path with
  | .ok _ => true
  | .errNotExist => false
  | .errOther => true

/-- Go `Missing` condition: `!Exists(path)`. -/
def Missing (fs : FS) (path : String) : Bool :=
  !fileExists fs path

/-- Go `Outdated` condition.  `os.Stat(target)` failing for any reason yields
true; otherwise the dependency list is `globalDeps`, extended by `sources()`
when a sources thunk is attached (`sources : Option _`, `none` = nil); a
dependency whose stat fails for any reason yields true (with a diagnostic),
as does a dependency whose modification time is strictly after the
target's (`info.ModTime().After(targetTime)`). -/
def Outdated (fs : FS) (globalDeps : List String) (target : String)
    (sources : Option (List String)) : Bool :=
  match fs target with
  | .errNotExist => true
  | .errOther => true
  | .ok targetTime =>
    let deps := match sources with
      | none => globalDeps
      | some srcs => globalDeps ++ srcs
    deps.any fun source =>
      match fs source with
      | .errNotExist => true
      | .errOther => true
      | .ok t => decide (targetTime < t)

/-- Go `Main`'s registration of global dependencies (`if main != "" {
globalDeps = append(globalDeps, main) }; globalDeps = append(globalDeps,
deps...)`), starting from the prior list (empty at program start). -/
def registerGlobalDeps (gd : List String) (main : String) (deps : List String) : List String :=
  (if main = "" then gd else gd ++ [main]) ++ deps

/-- Modelled from the spec's words, for comparison with `Outdated` (the code
is the authority): "true iff the target path does not exist, or some
dependency in the union of the global list and the per-call list does not
exist, or some such dependency's modification time is strictly after the
target's", where existence of a path is the package's own `Exists`
predicate (`fileExists`). -/
def outdatedSpecClaim (fs : FS) (gd : List String) (target : String)
    (sources : Option (List String)) : Bool :=
  let deps := gd ++ sources.getD []
  !fileExists fs target ||
    deps.any fun d =>
      !fileExists fs d ||
        (match fs target, fs d with
         | .ok targetTime, .ok t => decide (targetTime < t)
         | _, _ => false)

/-! ## Command-line variables (`Getvar`) -/

/-- Go map read (`value, ok := m[key]`), on an association-list model. -/
def mapGet (m : List (String × String)) (k : String) : Option String :=
  match m with
  | [] => none
  | (k2, v) :: rest => if k2 = k then some v else mapGet rest k

/-- Go map write (`m[key] = value`), on an association-list model. -/
def mapSet (m : List (String × String)) (k v : String) : List (String × String) :=
  match m with
  | [] => [(k, v)]
  | (k2, v2) :: rest => if k2 = k then (k, v) :: rest else (k2, v2) :: mapSet rest k v

/-- The two package-level maps consulted by `Getvar`: `Vars` (assignments
parsed from the command line) and `varDefaults` (the default recorded at
each name's first query). -/
structure VarState where
  Vars : List (String × String)
  varDefaults : List (String × String)
deriving DecidableEq

/-- The tail of Go `Getvar` after the consistency check: record
`varDefaults[key] = defaultValue`, then return `Vars[key]` if present and
the default otherwise. -/
def getvarFinish (key defaultValue : String) (st : VarState) : String × VarState :=
  let st2 : VarState := ⟨st.Vars, mapSet st.varDefaults key defaultValue⟩
  match mapGet st.Vars key with
  | some value => (value, st2)
  | none => (defaultValue, st2)

/-- Go `Getvar`: `if value, exist := varDefaults[key]; exist && value !=
defaultValue { panic(...) }` — the panic is modelled by `none`. -/
def Getvar (key defaultValue : String) (st : VarState) : Option (String × VarState) :=
  match mapGet st.varDefaults key with
  | some value =>
    if value = defaultValue then some (getvarFinish key defaultValue st) else none
  | none => some (getvarFinish key defaultValue st)

/-! ## Task model and execution engine -/

/-- Trace events emitted by the modelled engine: passing the memoization
check and marking an identity visited (`enter`), evaluating the identity's
attached condition, executing its command, executing its function. -/
inductive Event where
  | enter (tag : Nat)
  | evalCond (tag : Nat)
  | execCmd (tag : Nat)
  | execFunc (tag : Nat)
deriving DecidableEq

/-- Go `Task`.  The identity pointer `tag *tag` is modelled by a `Nat` token
(identity equality is token equality).  The condition closure `cond func()
bool` is modelled by the value it returns (`none` = nil); the function
closure `function func() error` by whether it succeeds (`none` = nil,
`some true` = returns nil, `some false` = returns an error).  `command`
nil/empty is the empty list. -/
inductive Task where
  | mk (tag : Nat) (name : String) (isDefault : Bool) (tasks : List Task)
      (command : List String) (env : List (String × String))
      (function : Option Bool) (cond : Option Bool)

/-- Identity token of a task. -/
def Task.tag : Task → Nat
  | .mk g _ _ _ _ _ _ _ => g

/-- Name of a task (empty for non-target tasks). -/
def Task.name : Task → String
  | .mk _ n _ _ _ _ _ _ => n

/-- Default flag of a task. -/
def Task.isDefault : Task → Bool
  | .mk _ _ d _ _ _ _ _ => d

/-- Result of the modelled `run`: normal return carrying the updated visited
set, the `worked` boolean and the emitted events, or `fatal`, modelling
`os.Exit(1)` reached inside `run` (carrying the visited set and events at
the moment of exit). -/
inductive RunResult where
  | ok (cache : List Nat) (worked : Bool) (events : List Event)
  | fatal (cache : List Nat) (events : List Event)
deriving DecidableEq

/-- Result of one of the two own-action steps of `run` (command, function). -/
inductive StepResult where
  | ok (worked : Bool) (events : List Event)
  | fatal (events : List Event)
deriving DecidableEq

/-- The command step of Go `run`: `if len(task.command) > 0 { ...
cmd.Run() ... }`; the spawn-and-wait outcome is given by the oracle
`execOk`; a non-nil error is `os.Exit(1)` (`fatal`), success sets
`worked = true`. -/
def runCommand (execOk : List String → Bool) (tag : Nat) (command : List String) : StepResult :=
  match command with
  | [] => .ok false []
  | _ :: _ => if execOk command then .ok true [.execCmd tag] else .fatal [.execCmd tag]

/-- The function step of Go `run`: `if task.function != nil { if err :=
task.function(); err != nil { ... os.Exit(1) } ; worked = true }`. -/
def runFunction (tag : Nat) (function : Option Bool) : StepResult :=
  match function with
  | none => .ok false []
  | some true => .ok true [.execFunc tag]
  | some false => .fatal [.execFunc tag]

/-- The tail of Go `run` after the recursion into children: thread the
children's result through the command step and the function step, and
return `worked` (children worked, or a command ran, or a function ran).
The node's events are its `enter`, any condition evaluation, the
children's events, then command and function events. -/
def afterChildren (execOk : List String → Bool) (tag : Nat) (command : List String)
    (function : Option Bool) (condEvs : List Event) (childRes : RunResult) : RunResult :=
  match childRes with
  | .fatal c e => .fatal c (.enter tag :: (condEvs ++ e))
  | .ok c w e =>
    match runCommand execOk tag command with
    | .fatal ec => .fatal c (.enter tag :: (condEvs ++ e ++ ec))
    | .ok wc ec =>
      match runFunction tag function with
      | .fatal ef => .fatal c (.enter tag :: (condEvs ++ e ++ ec ++ ef))
      | .ok wf ef => .ok c ((w || wc) || wf) (.enter tag :: (condEvs ++ e ++ ec ++ ef))

mutual

/-- Go `run(task, cache)`: if the identity is already in the cache, return
false immediately; otherwise mark it visited, evaluate the attached
condition (false stops here with no work), recurse into children in order,
then run the own command and function. -/
def run (execOk : List String → Bool) (task : Task) (cache : List Nat) : RunResult :=
  match task with
  | .mk tag _ _ tasks command _ function cond =>
    if tag ∈ cache then .ok cache false []
    else
      let condEvs : List Event := if cond.isSome then [.evalCond tag] else []
      if cond = some false then .ok (tag :: cache) false (.enter tag :: condEvs)
      else afterChildren execOk tag command function condEvs (runList execOk tasks (tag :: cache))

/-- The children loop of Go `run`: `for _, subtask := range task.tasks { if
run(subtask, cache) { worked = true } }`; a `fatal` child aborts the whole
process, so no later sibling runs. -/
def runList (execOk : List String → Bool) (tasks : List Task) (cache : List Nat) : RunResult :=
  match tasks with
  | [] => .ok cache false []
  | t :: ts =>
    match run execOk t cache with
    | .fatal c e => .fatal c e
    | .ok c1 w1 e1 =>
      match runList execOk ts c1 with
      | .fatal c2 e2 => .fatal c2 (e1 ++ e2)
      | .ok c2 w2 e2 => .ok c2 (w1 || w2) (e1 ++ e2)

end

/-- Outcome of the driver's target loop: the process exit code, the
"Nothing to be done for ..." lines printed, and the engine events. -/
inductive MainResult where
  | exit (code : Nat) (msgs : List String) (events : List Event)
deriving DecidableEq

/-- The target loop at the end of Go `Main`: one shared cache across the
selected targets; a target whose `run` reports no work prints "Nothing to
be done for <name>"; a `fatal` inside `run` is `os.Exit(1)`; after the
loop, `os.Exit(0)`. -/
def mainLoop (execOk : List String → Bool) (targets : List Task) (cache : List Nat)
    (msgs : List String) : MainResult :=
  match targets with
  | [] => .exit 0 msgs []
  | t :: ts =>
    match run execOk t cache with
    | .fatal _ e => .exit 1 msgs e
    | .ok c w e =>
      let msgs2 := if w then msgs else msgs ++ ["Nothing to be done for " ++ t.name]
      match mainLoop execOk ts c msgs2 with
      | .exit code m e2 => .exit code m (e ++ e2)

/-- Events of a `RunResult`. -/
def resultEvents : RunResult → List Event
  | .ok _ _ e => e
  | .fatal _ e => e

/-- Visited set of a `RunResult`. -/
def resultCache : RunResult → List Nat
  | .ok c _ _ => c
  | .fatal c _ => c

/-- Events of a `MainResult`. -/
def mainEvents : MainResult → List Event
  | .exit _ _ e => e

/-- Whether an event is actual work (a command or function execution). -/
def isWorkEvent : Event → Bool
  | .execCmd _ => true
  | .execFunc _ => true
  | _ => false

/-- Bookkeeping invariant tying a starting visited set, a finishing visited
set and an event trace together: the visited set only grows; an identity
already visited is never entered again; every identity is entered at most
once; an entered identity ends up visited; and condition/command/function
events for an identity are bounded by its `enter` events. -/
def EnterInv (cache cache2 : List Nat) (evs : List Event) : Prop :=
  cache ⊆ cache2 ∧
  (∀ g, g ∈ cache → evs.count (Event.enter g) = 0) ∧
  (∀ g, evs.count (Event.enter g) ≤ 1) ∧
  (∀ g, Event.enter g ∈ evs → g ∈ cache2) ∧
  (∀ g, evs.count (Event.evalCond g) ≤ evs.count (Event.enter g)) ∧
  (∀ g, evs.count (Event.execCmd g) ≤ evs.count (Event.enter g)) ∧
  (∀ g, evs.count (Event.execFunc g) ≤ evs.count (Event.enter g))

/-- `EnterInv` stated of a `RunResult`. -/
def ResultInv (cache : List Nat) (r : RunResult) : Prop :=
  EnterInv cache (resultCache r) (resultEvents r)

/-- The `worked` boolean of a normal `run` result is exactly "some work
event was emitted". -/
def WorkInv : RunResult → Prop
  | .ok _ w e => w = true ↔ e.any isWorkEvent = true
  | .fatal _ _ => True

/-! ## Target validation (`validateTargets`) -/

/-- The loop of Go `validateTargets`, with the accumulated name set (as a
list) and the accumulated `defaults` flag; the two panics (a target named
"help", a repeated non-empty name) are modelled by `none`. -/
def validateGo (names : List String) (defaults : Bool) : List Task → Option Bool
  | [] => some defaults
  | t :: ts =>
    let defaults2 := defaults || t.isDefault
    if t.name = "" then validateGo names defaults2 ts
    else if t.name = "help" then none
    else if t.name ∈ names then none
    else validateGo (t.name :: names) defaults2 ts

/-- Go `validateTargets`: `some defaults` on success, `none` when it would
panic. -/
def validateTargets (targets : List Task) : Option Bool :=
  validateGo [] false targets

/-- The non-empty names of a target list, in order. -/
def nonEmptyNames (targets : List Task) : List String :=
  targets.filterMap fun t => if t.name = "" then none else some t.name

/-! ## Log-line quoting (`maybeQuote`) and environment rendering -/

/-- One character of Go `strconv.Quote`'s body, for printable ASCII:
backslashes and double quotes are backslash-escaped. -/
def escChar (c : Char) : List Char :=
  if c = '"' then ['\\', '"'] else if c = '\\' then ['\\', '\\'] else [c]

/-- Go `strconv.Quote` for printable ASCII arguments: the escaped body
wrapped in double quotes. -/
def goQuoteChars (cs : List Char) : List Char :=
  '"' :: ((cs.map escChar).flatten ++ ['"'])

/-- Index of the first character satisfying `p` (Go `strings.Index` /
`strings.IndexAny`, with `none` for Go's -1). -/
def firstIdx (p : Char → Bool) : List Char → Option Nat
  | [] => none
  | c :: cs => if p c then some 0 else (firstIdx p cs).map (· + 1)

/-- Index of the last character satisfying `p` (Go `strings.LastIndexAny`,
with `none` for Go's -1). -/
def lastIdx (p : Char → Bool) (cs : List Char) : Option Nat :=
  match firstIdx p cs.reverse with
  | none => none
  | some i => some (cs.length - 1 - i)

/-- The character class `" ` of Go `maybeQuote`'s IndexAny calls. -/
def isQuoteOrSpace (c : Char) : Bool := c = '"' || c = ' '

/-- Go `maybeQuote` on the argument's characters (faithful for ASCII, where
Go's byte indices are character indices).  A single quote anywhere means
`strconv.Quote`.  Otherwise, with no double quote: no space means bare;
with a space, the whole argument is double-quoted unless the first `=`
precedes the first space, in which case only the part after the `=` is
double-quoted.  With exactly two double quotes, a single-quoted span is
spliced in from the first quote-or-space (moved to just after a preceding
first `=`, if any) to just past the last quote-or-space; in the branch
taken this index exists, so the `getD 0` defaults are never used.  Any
other number of double quotes single-quotes the whole argument. -/
def mqChars (cs : List Char) : List Char :=
  if cs.contains '\'' then goQuoteChars cs
  else if cs.count '"' = 0 then
    match firstIdx (fun c => c = ' ') cs with
    | none => cs
    | some sp =>
      match firstIdx (fun c => c = '=') cs with
      | none => '"' :: (cs ++ ['"'])
      | some eq => if sp < eq then '"' :: (cs ++ ['"'])
          else cs.take (eq + 1) ++ '"' :: (cs.drop (eq + 1) ++ ['"'])
  else if cs.count '"' = 2 then
    let beg0 := (firstIdx isQuoteOrSpace cs).getD 0
    let beg := match firstIdx (fun c => c = '=') cs with
      | some i => if i < beg0 then i + 1 else beg0
      | none => beg0
    let en := (lastIdx isQuoteOrSpace cs).getD 0 + 1
    cs.take beg ++ '\'' :: ((cs.take en).drop beg ++ '\'' :: cs.drop en)
  else '\'' :: (cs ++ ['\''])

/-- Go `maybeQuote` on strings. -/
def maybeQuote (s : String) : String := String.mk (mqChars s.data)

/-- One rendered pair of Go `Env.String`: `maybeQuote(k) + "=" + maybeQuote(v)`. -/
def renderPair (kv : String × String) : String :=
  maybeQuote kv.1 ++ "=" ++ maybeQuote kv.2

/-- Lexicographic comparison of character lists, Go's byte-wise string
comparison (`s1 <= s2`) restricted to ASCII, where bytes are characters. -/
def charListLe : List Char → List Char → Bool
  | [], _ => true
  | _ :: _, [] => false
  | a :: as, b :: bs => if a < b then true else if b < a then false else charListLe as bs

/-- Go string comparison as used by `sort.Strings`. -/
def strLeB (a b : String) : Bool := charListLe a.data b.data

/-- Go `Env.String`: render each pair, `sort.Strings(pairs)` (modelled by
insertion sort over Go's string comparison), join with spaces.  The map's
arbitrary iteration order is modelled by taking the pairs as a list in an
arbitrary order. -/
def envString (env : List (String × String)) : String :=
  String.intercalate " "
    (List.insertionSort (fun a b => strLeB a b = true) (env.map renderPair))

/-- Modelled from the spec's words, for comparison with `envString` (the
code is the authority): "the key=value pairs sorted lexicographically by
key". -/
def envStringSpecKeyOrder (env : List (String × String)) : String :=
  String.intercalate " "
    ((List.insertionSort (fun a b : String × String => strLeB a.1 b.1 = true) env).map
      renderPair)

end Make

namespace Make

/-! ## Engine bookkeeping lemmas -/

theorem EnterInv.refl (cache : List Nat) : EnterInv cache cache [] := by
  refine ⟨fun x h => h, ?_, ?_, ?_, ?_, ?_, ?_⟩ <;> simp

theorem EnterInv.seq {c0 c1 c2 : List Nat} {e1 e2 : List Event}
    (h1 : EnterInv c0 c1 e1) (h2 : EnterInv c1 c2 e2) : EnterInv c0 c2 (e1 ++ e2) := by
  obtain ⟨s1, z1, o1, m1, cc1, cm1, cf1⟩ := h1
  obtain ⟨s2, z2, o2, m2, cc2, cm2, cf2⟩ := h2
  refine ⟨s1.trans s2, ?_, ?_, ?_, ?_, ?_, ?_⟩
  · intro g hg
    rw [List.count_append]
    have ha := z1 g hg
    have hb := z2 g (s1 hg)
    omega
  · intro g
    rw [List.count_append]
    by_cases h : Event.enter g ∈ e1
    · have hz := z2 g (m1 g h)
      have := o1 g
      omega
    · have hz : e1.count (Event.enter g) = 0 := List.count_eq_zero.mpr h
      have := o2 g
      omega
  · intro g hm
    rcases List.mem_append.mp hm with h | h
    · exact s2 (m1 g h)
    · exact m2 g h
  · intro g
    rw [List.count_append, List.count_append]
    exact Nat.add_le_add (cc1 g) (cc2 g)
  · intro g
    rw [List.count_append, List.count_append]
    exact Nat.add_le_add (cm1 g) (cm2 g)
  · intro g
    rw [List.count_append, List.count_append]
    exact Nat.add_le_add (cf1 g) (cf2 g)

theorem EnterInv.node {cache c2 : List Nat} {tag : Nat} {condEvs e ec ef : List Event}
    (hnotin : tag ∉ cache)
    (hcon : condEvs = [] ∨ condEvs = [Event.evalCond tag])
    (hec : ec = [] ∨ ec = [Event.execCmd tag])
    (hef : ef = [] ∨ ef = [Event.execFunc tag])
    (h : EnterInv (tag :: cache) c2 e) :
    EnterInv cache c2 (Event.enter tag :: (condEvs ++ e ++ ec ++ ef)) := by
  obtain ⟨s, z, o, m, cc, cm, cf⟩ := h
  have htag_c2 : tag ∈ c2 := s (List.mem_cons_self _ _)
  have hsub : cache ⊆ c2 := fun x hx => s (List.mem_cons_of_mem _ hx)
  have hze : e.count (Event.enter tag) = 0 := z tag (List.mem_cons_self _ _)
  refine ⟨hsub, ?_, ?_, ?_, ?_, ?_, ?_⟩
  · intro g hg
    have hgt : g ≠ tag := fun hh => hnotin (hh ▸ hg)
    have hz := z g (List.mem_cons_of_mem _ hg)
    rcases hcon with rfl | rfl <;> rcases hec with rfl | rfl <;> rcases hef with rfl | rfl <;>
      simp [List.count_append, List.count_cons, hz, hgt, Ne.symm hgt]
  · intro g
    by_cases hg : g = tag
    · subst hg
      have := o g
      rcases hcon with rfl | rfl <;> rcases hec with rfl | rfl <;> rcases hef with rfl | rfl <;>
        simp [List.count_append, List.count_cons, hze]
    · have := o g
      rcases hcon with rfl | rfl <;> rcases hec with rfl | rfl <;> rcases hef with rfl | rfl <;>
        simp [List.count_append, List.count_cons, hg, Ne.symm hg] <;> omega
  · intro g hm
    by_cases hg : g = tag
    · exact hg ▸ htag_c2
    · have : Event.enter g ∈ e := by
        rcases hcon with rfl | rfl <;> rcases hec with rfl | rfl <;> rcases hef with rfl | rfl <;>
          simpa [hg, Ne.symm hg] using hm
      exact m g this
  · intro g
    by_cases hg : g = tag
    · subst hg
      have := cc g
      rcases hcon with rfl | rfl <;> rcases hec with rfl | rfl <;> rcases hef with rfl | rfl <;>
        simp [List.count_append, List.count_cons, hze] <;> omega
    · have := cc g
      rcases hcon with rfl | rfl <;> rcases hec with rfl | rfl <;> rcases hef with rfl | rfl <;>
        simp [List.count_append, List.count_cons, hg, Ne.symm hg] <;> omega
  · intro g
    by_cases hg : g = tag
    · subst hg
      have := cm g
      rcases hcon with rfl | rfl <;> rcases hec with rfl | rfl <;> rcases hef with rfl | rfl <;>
        simp [List.count_append, List.count_cons, hze] <;> omega
    · have := cm g
      rcases hcon with rfl | rfl <;> rcases hec with rfl | rfl <;> rcases hef with rfl | rfl <;>
        simp [List.count_append, List.count_cons, hg, Ne.symm hg] <;> omega
  · intro g
    by_cases hg : g = tag
    · subst hg
      have := cf g
      rcases hcon with rfl | rfl <;> rcases hec with rfl | rfl <;> rcases hef with rfl | rfl <;>
        simp [List.count_append, List.count_cons, hze] <;> omega
    · have := cf g
      rcases hcon with rfl | rfl <;> rcases hec with rfl | rfl <;> rcases hef with rfl | rfl <;>
        simp [List.count_append, List.count_cons, hg, Ne.symm hg] <;> omega

theorem runCommand_cases (execOk : List String → Bool) (tag : Nat) (command : List String) :
    runCommand execOk tag command = .ok false [] ∨
    runCommand execOk tag command = .ok true [Event.execCmd tag] ∨
    runCommand execOk tag command = .fatal [Event.execCmd tag] := by
  cases command with
  | nil => exact Or.inl rfl
  | cons c cs => by_cases h : execOk (c :: cs) <;> simp [runCommand, h]

theorem runFunction_cases (tag : Nat) (fn : Option Bool) :
    runFunction tag fn = .ok false [] ∨
    runFunction tag fn = .ok true [Event.execFunc tag] ∨
    runFunction tag fn = .fatal [Event.execFunc tag] := by
  rcases fn with _ | b
  · exact Or.inl rfl
  · cases b
    · exact Or.inr (Or.inr rfl)
    · exact Or.inr (Or.inl rfl)

theorem afterChildren_inv {cache : List Nat} {tag : Nat} (execOk : List String → Bool)
    (command : List String) (fn : Option Bool) {condEvs : List Event}
    (hnotin : tag ∉ cache)
    (hcon : condEvs = [] ∨ condEvs = [Event.evalCond tag])
    {childRes : RunResult}
    (hchild : ResultInv (tag :: cache) childRes) (hwork : WorkInv childRes) :
    ResultInv cache (afterChildren execOk tag command fn condEvs childRes) ∧
    WorkInv (afterChildren execOk tag command fn condEvs childRes) := by
  rcases childRes with ⟨c, w, e⟩ | ⟨c, e⟩
  · simp only [ResultInv, resultCache, resultEvents] at hchild
    simp only [WorkInv] at hwork
    rcases runCommand_cases execOk tag command with hc | hc | hc <;>
      rcases runFunction_cases tag fn with hf | hf | hf <;>
        simp only [afterChildren, hc, hf]
    all_goals refine ⟨?_, ?_⟩
    all_goals first
    | trivial
    | · simp only [ResultInv, resultCache, resultEvents]
        first
        | (have h0 := EnterInv.node hnotin hcon (Or.inl rfl) (Or.inl rfl) hchild
           simpa using h0)
        | (have h0 := EnterInv.node hnotin hcon (Or.inl rfl) (Or.inr rfl) hchild
           simpa using h0)
        | (have h0 := EnterInv.node hnotin hcon (Or.inr rfl) (Or.inl rfl) hchild
           simpa using h0)
        | (have h0 := EnterInv.node hnotin hcon (Or.inr rfl) (Or.inr rfl) hchild
           simpa using h0)
    | · simp only [WorkInv]
        rcases hcon with rfl | rfl <;> simp [isWorkEvent, hwork]
  · simp only [ResultInv, resultCache, resultEvents] at hchild
    refine ⟨?_, trivial⟩
    simp only [afterChildren, ResultInv, resultCache, resultEvents]
    have h0 := EnterInv.node hnotin hcon (Or.inl rfl) (Or.inl rfl) hchild
    simpa using h0

end Make

namespace Make

theorem runInvAux : ∀ n : Nat,
    (∀ (execOk : List String → Bool) (t : Task) (cache : List Nat), sizeOf t < n →
      ResultInv cache (run execOk t cache) ∧ WorkInv (run execOk t cache)) ∧
    (∀ (execOk : List String → Bool) (ts : List Task) (cache : List Nat), sizeOf ts < n →
      ResultInv cache (runList execOk ts cache) ∧ WorkInv (runList execOk ts cache)) := by
  intro n
  induction n using Nat.strong_induction_on with
  | _ n IH =>
    constructor
    · intro execOk t cache hlt
      rcases t with ⟨tag, nm, d, tasks, command, env, fn, cond⟩
      have hsize : sizeOf tasks < sizeOf (Task.mk tag nm d tasks command env fn cond) := by
        simp
        omega
      rw [run]
      by_cases hmem : tag ∈ cache
      · simp only [hmem, if_true]
        exact ⟨EnterInv.refl cache, by simp [WorkInv]⟩
      · simp only [hmem, if_false]
        by_cases hcf : cond = some false
        · subst hcf
          simp only [Option.isSome_some, if_true, if_pos rfl]
          constructor
          · simp only [ResultInv, resultCache, resultEvents]
            have h0 := EnterInv.node (e := []) hmem (Or.inr rfl) (Or.inl rfl) (Or.inl rfl)
              (EnterInv.refl (tag :: cache))
            simpa using h0
          · simp [WorkInv, isWorkEvent]
        · simp only [if_neg hcf]
          have hchild := (IH (sizeOf (Task.mk tag nm d tasks command env fn cond)) hlt).2
            execOk tasks (tag :: cache) hsize
          have hcon : (if cond.isSome then [Event.evalCond tag] else ([] : List Event)) = [] ∨
              (if cond.isSome then [Event.evalCond tag] else ([] : List Event)) =
                [Event.evalCond tag] := by
            by_cases h : cond.isSome <;> simp [h]
          exact afterChildren_inv execOk command fn hmem hcon hchild.1 hchild.2
    · intro execOk ts cache hlt
      rcases ts with _ | ⟨t, rest⟩
      · rw [runList]
        exact ⟨EnterInv.refl cache, by simp [WorkInv]⟩
      · have hst : sizeOf t < sizeOf (t :: rest) := by simp only [List.cons.sizeOf_spec]; omega
        have hsr : sizeOf rest < sizeOf (t :: rest) := by simp only [List.cons.sizeOf_spec]; omega
        have h1 := (IH (sizeOf (t :: rest)) hlt).1 execOk t cache hst
        rw [runList]
        rcases hr : run execOk t cache with ⟨c1, w1, e1⟩ | ⟨c, e⟩ <;> rw [hr] at h1 <;>
          simp only [ResultInv, resultCache, resultEvents, WorkInv] at h1
        · have h2 := (IH (sizeOf (t :: rest)) hlt).2 execOk rest c1 hsr
          rcases hr2 : runList execOk rest c1 with ⟨c2, w2, e2⟩ | ⟨c2, e2⟩ <;> rw [hr2] at h2 <;>
            simp only [ResultInv, resultCache, resultEvents, WorkInv] at h2
          · simp only [hr2]
            refine ⟨EnterInv.seq h1.1 h2.1, ?_⟩
            show (w1 || w2) = true ↔ (e1 ++ e2).any isWorkEvent = true
            rw [List.any_append, Bool.or_eq_true, Bool.or_eq_true, h1.2, h2.2]
          · simp only [hr2]
            exact ⟨EnterInv.seq h1.1 h2.1, trivial⟩
        · exact ⟨h1.1, trivial⟩

theorem run_inv (execOk : List String → Bool) (t : Task) (cache : List Nat) :
    ResultInv cache (run execOk t cache) ∧ WorkInv (run execOk t cache) :=
  (runInvAux (sizeOf t + 1)).1 execOk t cache (Nat.lt_succ_self _)

theorem runList_inv (execOk : List String → Bool) (ts : List Task) (cache : List Nat) :
    ResultInv cache (runList execOk ts cache) ∧ WorkInv (runList execOk ts cache) :=
  (runInvAux (sizeOf ts + 1)).2 execOk ts cache (Nat.lt_succ_self _)

theorem run_cached (execOk : List String → Bool) (t : Task) (cache : List Nat)
    (h : t.tag ∈ cache) : run execOk t cache = .ok cache false [] := by
  rcases t with ⟨tag, nm, d, tasks, command, env, fn, cond⟩
  simp only [Task.tag] at h
  rw [run]
  simp [h]

theorem mainLoop_inv (execOk : List String → Bool) (targets : List Task) :
    ∀ (cache : List Nat) (msgs : List String),
      ∃ c2, EnterInv cache c2 (mainEvents (mainLoop execOk targets cache msgs)) := by
  induction targets with
  | nil =>
    intro cache msgs
    exact ⟨cache, by rw [mainLoop]; exact EnterInv.refl cache⟩
  | cons t rest IH =>
    intro cache msgs
    have h1 := (run_inv execOk t cache).1
    rw [mainLoop]
    rcases hr : run execOk t cache with ⟨c1, w1, e1⟩ | ⟨c, e⟩ <;> rw [hr] at h1 <;>
      simp only [ResultInv, resultCache, resultEvents] at h1
    · obtain ⟨c2, h2⟩ := IH c1 (if w1 then msgs else msgs ++ ["Nothing to be done for " ++ t.name])
      rcases hm : mainLoop execOk rest c1
          (if w1 then msgs else msgs ++ ["Nothing to be done for " ++ t.name]) with ⟨code, m, e2⟩
      rw [hm] at h2
      simp only [mainEvents] at h2
      refine ⟨c2, ?_⟩
      simp only [hm, mainEvents]
      exact EnterInv.seq h1 h2
    · exact ⟨c, h1⟩

end Make

namespace Make

/-! ## Claims about the execution engine -/

/-- C1: within a single top-level invocation of `run` with a given cache,
each task identity's condition, children, command and function are
evaluated at most once (the event trace holds at most one `enter`, one
`evalCond`, one `execCmd` and one `execFunc` per identity, and children are
only descended into at the sole `enter`), also across multiple selected
top-level targets sharing the driver's cache; and on a second encounter of
an identity already in the cache, `run` returns immediately reporting no
work, evaluating no condition and emitting no events at all. -/
theorem claim_C1_memoized_at_most_once (execOk : List String → Bool) :
    (∀ (t : Task) (cache : List Nat), t.tag ∈ cache →
      run execOk t cache = .ok cache false []) ∧
    (∀ (t : Task) (cache : List Nat) (g : Nat),
      (resultEvents (run execOk t cache)).count (Event.enter g) ≤ 1 ∧
      (resultEvents (run execOk t cache)).count (Event.evalCond g) ≤ 1 ∧
      (resultEvents (run execOk t cache)).count (Event.execCmd g) ≤ 1 ∧
      (resultEvents (run execOk t cache)).count (Event.execFunc g) ≤ 1) ∧
    (∀ (targets : List Task) (g : Nat),
      (mainEvents (mainLoop execOk targets [] [])).count (Event.enter g) ≤ 1 ∧
      (mainEvents (mainLoop execOk targets [] [])).count (Event.evalCond g) ≤ 1 ∧
      (mainEvents (mainLoop execOk targets [] [])).count (Event.execCmd g) ≤ 1 ∧
      (mainEvents (mainLoop execOk targets [] [])).count (Event.execFunc g) ≤ 1) := by
  refine ⟨run_cached execOk, ?_, ?_⟩
  · intro t cache g
    obtain ⟨_, _, o, _, cc, cm, cf⟩ := (run_inv execOk t cache).1
    exact ⟨o g, le_trans (cc g) (o g), le_trans (cm g) (o g), le_trans (cf g) (o g)⟩
  · intro targets g
    obtain ⟨c2, _, _, o, _, cc, cm, cf⟩ := mainLoop_inv execOk targets [] []
    exact ⟨o g, le_trans (cc g) (o g), le_trans (cm g) (o g), le_trans (cf g) (o g)⟩

theorem claim_C1_memoized_at_most_once_witness :
    run (fun _ => true) (Task.mk 7 "t" false [] ["c"] [] none none) [7] = .ok [7] false [] :=
  (claim_C1_memoized_at_most_once (fun _ => true)).1
    (Task.mk 7 "t" false [] ["c"] [] none none) [7] (by decide)

/-- C2: a task whose attached condition evaluates to false is first marked
visited, then `run` returns false (no work) having emitted only its `enter`
and the condition evaluation: no child events, no command, no function; and
since the identity is now in the cache, any task carrying the same identity
reached later in the same invocation (e.g. via a different, ungated parent)
returns immediately with no work and no events. -/
theorem claim_C2_guard_false (execOk : List String → Bool) (tag : Nat) (nm : String)
    (d : Bool) (tasks : List Task) (command : List String) (env : List (String × String))
    (fn : Option Bool) (cache : List Nat) (h : tag ∉ cache) :
    run execOk (Task.mk tag nm d tasks command env fn (some false)) cache =
      .ok (tag :: cache) false [Event.enter tag, Event.evalCond tag] ∧
    (∀ t2 : Task, t2.tag = tag →
      run execOk t2 (tag :: cache) = .ok (tag :: cache) false []) := by
  constructor
  · rw [run]
    simp [h]
  · intro t2 ht2
    exact run_cached execOk t2 _ (ht2 ▸ List.mem_cons_self _ _)

theorem claim_C2_guard_false_witness :
    run (fun _ => true) (Task.mk 3 "g" false [Task.mk 4 "" false [] ["c"] [] none none]
        ["cmd"] [] (some true) (some false)) [] =
      .ok [3] false [Event.enter 3, Event.evalCond 3] ∧
    run (fun _ => true) (Task.mk 3 "g" false [Task.mk 4 "" false [] ["c"] [] none none]
        ["cmd"] [] (some true) (some false)) [3] =
      .ok [3] false [] := by
  have h := claim_C2_guard_false (fun _ => true) 3 "g" false
    [Task.mk 4 "" false [] ["c"] [] none none] ["cmd"] [] (some true) [] (by decide)
  exact ⟨h.1, h.2 _ (by decide)⟩

/-- C4: a normal `run` result reports work exactly when a command or
function execution happened somewhere in the traversal (equivalently: a
child reported work, or the own command ran, or the own function ran); and
the driver prints "Nothing to be done for <name>" for a target whose `run`
returned false — and not for one that worked — exiting 0 either way. -/
theorem claim_C4_worked_iff (execOk : List String → Bool) :
    (∀ (t : Task) (cache c : List Nat) (w : Bool) (evs : List Event),
      run execOk t cache = .ok c w evs →
      (w = true ↔ evs.any isWorkEvent = true)) ∧
    (∀ (t : Task) (cache c : List Nat) (evs : List Event) (msgs : List String),
      run execOk t cache = .ok c false evs →
      mainLoop execOk [t] cache msgs =
        .exit 0 (msgs ++ ["Nothing to be done for " ++ t.name]) evs) ∧
    (∀ (t : Task) (cache c : List Nat) (evs : List Event) (msgs : List String),
      run execOk t cache = .ok c true evs →
      mainLoop execOk [t] cache msgs = .exit 0 msgs evs) := by
  refine ⟨?_, ?_, ?_⟩
  · intro t cache c w evs hr
    have h := (run_inv execOk t cache).2
    rw [hr] at h
    exact h
  · intro t cache c evs msgs hr
    rw [mainLoop]
    simp [hr, mainLoop]
  · intro t cache c evs msgs hr
    rw [mainLoop]
    simp [hr, mainLoop]

theorem claim_C4_worked_iff_witness :
    (false = true ↔ [Event.enter 1].any isWorkEvent = true) ∧
    mainLoop (fun _ => true) [Task.mk 1 "top" false [] [] [] none none] [] [] =
      .exit 0 ["Nothing to be done for top"] [Event.enter 1] := by
  have h := claim_C4_worked_iff (fun _ => true)
  have hr : run (fun _ => true) (Task.mk 1 "top" false [] [] [] none none) [] =
      .ok [1] false [Event.enter 1] := by decide
  exact ⟨h.1 _ [] [1] false [Event.enter 1] hr, h.2.1 _ [] [1] [Event.enter 1] [] hr⟩

/-- C5: a command that fails to run (or exits non-zero) or a function that
returns an error makes `run` end in `fatal` (the modelled `os.Exit(1)`);
the driver then finishes with exit code 1, no later sibling task of the
children loop runs, no subsequently listed target runs, and the failure is
never surfaced as an error value to `run`'s caller (there is no error-value
result: only `ok` or process exit). -/
theorem claim_C5_fatal_propagation (execOk : List String → Bool) :
    (∀ (t : Task) (ts : List Task) (cache c : List Nat) (evs : List Event)
        (msgs : List String),
      run execOk t cache = .fatal c evs →
      mainLoop execOk (t :: ts) cache msgs = .exit 1 msgs evs) ∧
    (∀ (t : Task) (ts : List Task) (cache c : List Nat) (evs : List Event),
      run execOk t cache = .fatal c evs →
      runList execOk (t :: ts) cache = .fatal c evs) ∧
    (∀ (tag : Nat) (nm : String) (d : Bool) (command : List String)
        (env : List (String × String)) (fn : Option Bool) (cache : List Nat),
      command ≠ [] → execOk command = false → tag ∉ cache →
      run execOk (Task.mk tag nm d [] command env fn none) cache =
        .fatal (tag :: cache) [Event.enter tag, Event.execCmd tag]) ∧
    (∀ (tag : Nat) (nm : String) (d : Bool) (env : List (String × String)) (cache : List Nat),
      tag ∉ cache →
      run execOk (Task.mk tag nm d [] [] env (some false) none) cache =
        .fatal (tag :: cache) [Event.enter tag, Event.execFunc tag]) := by
  refine ⟨?_, ?_, ?_, ?_⟩
  · intro t ts cache c evs msgs hr
    rw [mainLoop]
    simp [hr]
  · intro t ts cache c evs hr
    rw [runList]
    simp [hr]
  · intro tag nm d command env fn cache hcmd hexec hmem
    rw [run]
    rcases command with _ | ⟨c0, cs⟩
    · exact absurd rfl hcmd
    · simp [hmem, runList, afterChildren, runCommand, hexec]
  · intro tag nm d env cache hmem
    rw [run]
    simp [hmem, runList, afterChildren, runCommand, runFunction]

theorem claim_C5_fatal_propagation_witness :
    run (fun _ => false) (Task.mk 5 "b" false [] ["boom"] [] none none) [] =
      .fatal [5] [Event.enter 5, Event.execCmd 5] ∧
    mainLoop (fun _ => false)
      [Task.mk 5 "b" false [] ["boom"] [] none none,
       Task.mk 6 "later" false [] [] [] (some true) none] [] [] =
      .exit 1 [] [Event.enter 5, Event.execCmd 5] := by
  have h := claim_C5_fatal_propagation (fun _ => false)
  have h3 := h.2.2.1 5 "b" false ["boom"] [] none [] (by decide) (by rfl) (by decide)
  exact ⟨h3, h.1 _ _ _ _ _ _ h3⟩

end Make

namespace Make

/-! ## Claims about `Getvar` -/

theorem mapGet_mapSet_self (m : List (String × String)) (k v : String) :
    mapGet (mapSet m k v) k = some v := by
  induction m with
  | nil => simp [mapSet, mapGet]
  | cons kv rest IH =>
    rcases kv with ⟨k2, v2⟩
    by_cases h : k2 = k <;> simp [mapSet, mapGet, h, IH]

theorem mapSet_mapSet_self (m : List (String × String)) (k v : String) :
    mapSet (mapSet m k v) k v = mapSet m k v := by
  induction m with
  | nil => simp [mapSet]
  | cons kv rest IH =>
    rcases kv with ⟨k2, v2⟩
    by_cases h : k2 = k <;> simp [mapSet, h, IH]

theorem getvarFinish_eq (key dv : String) (st : VarState) :
    getvarFinish key dv st =
      ((mapGet st.Vars key).getD dv, ⟨st.Vars, mapSet st.varDefaults key dv⟩) := by
  unfold getvarFinish
  rcases h : mapGet st.Vars key <;> simp [h]

/-- C6: once a variable name has been queried with some default value, a
later `Getvar` of the same name with a different default value panics
(modelled `none`), while a later query with the same default value
succeeds again with the same result and leaves the registry unchanged. -/
theorem claim_C6_getvar_default_consistency (key dv dv2 : String) (st : VarState)
    (v : String) (st2 : VarState) (h : Getvar key dv st = some (v, st2)) :
    (dv2 ≠ dv → Getvar key dv2 st2 = none) ∧
    Getvar key dv st2 = some (v, st2) := by
  have hmain : st2 = ⟨st.Vars, mapSet st.varDefaults key dv⟩ ∧
      v = (mapGet st.Vars key).getD dv := by
    simp only [Getvar, getvarFinish_eq] at h
    rcases hg : mapGet st.varDefaults key with _ | v0 <;> rw [hg] at h
    · simp only [Option.some.injEq, Prod.mk.injEq] at h
      exact ⟨h.2.symm, h.1.symm⟩
    · by_cases hv0 : v0 = dv
      · simp only [hv0, if_pos, Option.some.injEq, Prod.mk.injEq, ite_true] at h
        exact ⟨h.2.symm, h.1.symm⟩
      · simp only [hv0, ite_false, if_neg, not_false_iff] at h
        exact absurd h (by simp)
  obtain ⟨hst2, hv⟩ := hmain
  constructor
  · intro hne
    simp only [Getvar, hst2, mapGet_mapSet_self]
    rw [if_neg fun hh => hne hh.symm]
  · simp only [Getvar, getvarFinish_eq, hst2, mapGet_mapSet_self, if_pos rfl,
      mapSet_mapSet_self]
    simp [hv]

theorem claim_C6_getvar_default_consistency_witness :
    Getvar "CC" "gcc" ⟨[("CC", "clang")], []⟩ =
      some ("clang", ⟨[("CC", "clang")], [("CC", "gcc")]⟩) ∧
    Getvar "CC" "cc" ⟨[("CC", "clang")], [("CC", "gcc")]⟩ = none ∧
    Getvar "CC" "gcc" ⟨[("CC", "clang")], [("CC", "gcc")]⟩ =
      some ("clang", ⟨[("CC", "clang")], [("CC", "gcc")]⟩) := by
  have h := claim_C6_getvar_default_consistency "CC" "gcc" "cc"
    ⟨[("CC", "clang")], []⟩ "clang" ⟨[("CC", "clang")], [("CC", "gcc")]⟩ (by decide)
  exact ⟨by decide, h.1 (by decide), h.2⟩

end Make

namespace Make

/-! ## Claims about `validateTargets` -/

theorem validateGo_some (ts : List Task) : ∀ (names : List String) (d r : Bool),
    validateGo names d ts = some r → r = (d || ts.any Task.isDefault) := by
  induction ts with
  | nil =>
    intro names d r h
    simp only [validateGo, Option.some.injEq] at h
    simp [h.symm]
  | cons t rest IH =>
    intro names d r h
    by_cases h1 : t.name = ""
    · simp only [validateGo, if_pos h1] at h
      have h4 := IH names (d || t.isDefault) r h
      simp [h4, List.any_cons, Bool.or_assoc]
    · by_cases h2 : t.name = "help"
      · simp only [validateGo, if_neg h1, if_pos h2] at h
        exact Option.noConfusion h
      · by_cases h3 : t.name ∈ names
        · simp only [validateGo, if_neg h1, if_neg h2, if_pos h3] at h
          exact Option.noConfusion h
        · simp only [validateGo, if_neg h1, if_neg h2, if_neg h3] at h
          have h4 := IH (t.name :: names) (d || t.isDefault) r h
          simp [h4, List.any_cons, Bool.or_assoc]

theorem validateGo_none_iff (ts : List Task) : ∀ (names : List String) (d : Bool),
    "help" ∉ names → names.Nodup →
    (validateGo names d ts = none ↔
      (∃ t ∈ ts, t.name = "help") ∨ ¬ (names ++ nonEmptyNames ts).Nodup) := by
  induction ts with
  | nil =>
    intro names d hh hn
    simp [validateGo, nonEmptyNames, hn]
  | cons t rest IH =>
    intro names d hh hn
    by_cases h1 : t.name = ""
    · simp only [validateGo, if_pos h1]
      rw [IH names (d || t.isDefault) hh hn]
      have hne : ¬ t.name = "help" := by simp [h1]
      simp [nonEmptyNames, List.filterMap_cons, h1, hne]
    · by_cases h2 : t.name = "help"
      · simp only [validateGo, if_neg h1, if_pos h2]
        exact iff_of_true trivial (Or.inl ⟨t, List.mem_cons_self _ _, h2⟩)
      · by_cases h3 : t.name ∈ names
        · simp only [validateGo, if_neg h1, if_neg h2, if_pos h3]
          refine iff_of_true trivial (Or.inr fun hnd => ?_)
          exact (List.nodup_append.mp hnd).2.2 h3
            (by simp [nonEmptyNames, List.filterMap_cons, h1])
        · simp only [validateGo, if_neg h1, if_neg h2, if_neg h3]
          have hh2 : "help" ∉ t.name :: names := by
            intro hc
            rcases List.mem_cons.mp hc with hc | hc
            · exact h2 hc.symm
            · exact hh hc
          have hn2 : (t.name :: names).Nodup := List.Nodup.cons h3 hn
          rw [IH (t.name :: names) (d || t.isDefault) hh2 hn2]
          have hperm : List.Perm ((t.name :: names) ++ nonEmptyNames rest)
              (names ++ t.name :: nonEmptyNames rest) := List.perm_middle.symm
          have hnd : ((t.name :: names) ++ nonEmptyNames rest).Nodup ↔
              (names ++ t.name :: nonEmptyNames rest).Nodup := hperm.nodup_iff
          have hexist : (∃ x ∈ t :: rest, x.name = "help") ↔
              (∃ x ∈ rest, x.name = "help") := by
            constructor
            · rintro ⟨x, hx, hxn⟩
              rcases List.mem_cons.mp hx with rfl | hx
              · exact absurd hxn h2
              · exact ⟨x, hx, hxn⟩
            · rintro ⟨x, hx, hxn⟩
              exact ⟨x, List.mem_cons_of_mem _ hx, hxn⟩
          rw [hexist]
          have hcons : nonEmptyNames (t :: rest) = t.name :: nonEmptyNames rest := by
            simp [nonEmptyNames, List.filterMap_cons, h1]
          rw [hcons, ← hnd]

/-- C7: validating the available target list panics (modelled `none`)
exactly when two targets share the same non-empty name or some target is
named with the reserved identifier "help"; otherwise it succeeds, reporting
whether any target is marked default. -/
theorem claim_C7_validate_targets (targets : List Task) :
    (validateTargets targets = none ↔
      (∃ t ∈ targets, t.name = "help") ∨ ¬ (nonEmptyNames targets).Nodup) ∧
    (∀ d : Bool, validateTargets targets = some d → d = targets.any Task.isDefault) := by
  constructor
  · have h := validateGo_none_iff targets [] false (by simp) (by simp)
    simpa [validateTargets] using h
  · intro d h
    have h2 := validateGo_some targets [] false d h
    simpa using h2

theorem claim_C7_validate_targets_witness :
    true = [Task.mk 1 "a" true [] [] [] none none,
            Task.mk 2 "b" false [] [] [] none none].any Task.isDefault ∧
    validateTargets [Task.mk 1 "a" false [] [] [] none none,
                     Task.mk 2 "a" false [] [] [] none none] = none ∧
    validateTargets [Task.mk 1 "help" false [] [] [] none none] = none := by
  refine ⟨?_, ?_, ?_⟩
  · exact (claim_C7_validate_targets _).2 true (by decide)
  · exact (claim_C7_validate_targets _).1.mpr (Or.inr (by decide))
  · exact (claim_C7_validate_targets _).1.mpr
      (Or.inl ⟨Task.mk 1 "help" false [] [] [] none none, List.mem_cons_self _ _, by decide⟩)

end Make

namespace Make

/-! ## Claims about the filesystem conditions -/

/-- C10: `Exists` (modelled by `fileExists`) returns true whenever the stat
succeeds or fails with an error other than not-exist (for example a
permission error), and returns false only on a genuine not-exist error;
consequently `Missing` is true exactly when the stat fails specifically
with a not-exist error. -/
theorem claim_C10_exists_missing (fs : FS) (p : String) :
    (fileExists fs p = true ↔ (∃ t, fs p = .ok t) ∨ fs p = .errOther) ∧
    (Missing fs p = true ↔ fs p = .errNotExist) := by
  rcases h : fs p with t | _ | _ <;> simp [fileExists, Missing, h]

/-- C3 counterexample: on a filesystem where every stat fails with an error
other than not-exist (e.g. permission denied), `Outdated` evaluates true
although — in the claimed reading, with existence the package's own
`Exists` predicate — the target path exists, and the (empty) dependency
union has no missing or newer member, so the claimed "iff" is false at
this input. -/
theorem claim_C3_counterexample :
    Outdated (fun _ => StatResult.errOther) [] "out" none = true ∧
    outdatedSpecClaim (fun _ => StatResult.errOther) [] "out" none = false :=
  ⟨rfl, rfl⟩

/-- C3 (amended): the predicate returned by `Outdated` evaluates true iff
the stat of the target path fails (with not-exist or any other error), or
the stat of some dependency in the union of the process-wide
global-dependency list and the per-call source list fails, or some such
dependency's modification time is strictly after the target's; and the
global dependencies registered at program start (`Main`) are included in
every `Outdated` evaluation even when not passed explicitly to that
call. -/
theorem claim_C3_amended (fs : FS) (gd : List String) (target : String)
    (sources : Option (List String)) :
    (Outdated fs gd target sources = true ↔
      (∀ t, fs target ≠ .ok t) ∨
      ∃ d ∈ gd ++ sources.getD [], (∀ t, fs d ≠ .ok t) ∨
        ∃ tt dt, fs target = .ok tt ∧ fs d = .ok dt ∧ tt < dt) ∧
    (∀ (gd0 : List String) (main : String) (deps : List String) (G : String) (tt gt : Int),
      G ∈ registerGlobalDeps gd0 main deps → fs target = .ok tt → fs G = .ok gt → tt < gt →
      Outdated fs (registerGlobalDeps gd0 main deps) target sources = true) := by
  constructor
  · rcases h : fs target with tt | _ | _
    · rcases sources with _ | srcs <;> simp only [Outdated, h] <;> rw [List.any_eq_true] <;>
        constructor
      · rintro ⟨d, hd, hf⟩
        refine Or.inr ⟨d, by simpa using hd, ?_⟩
        rcases hfd : fs d with dt | _ | _ <;> rw [hfd] at hf
        · exact Or.inr ⟨tt, dt, rfl, rfl, by simpa using hf⟩
        · exact Or.inl fun t => by simp [hfd]
        · exact Or.inl fun t => by simp [hfd]
      · rintro (hbad | ⟨d, hd, hcase⟩)
        · exact absurd rfl (hbad tt)
        · refine ⟨d, by simpa using hd, ?_⟩
          rcases hcase with hfail | ⟨tt2, dt, htt, hfd, hlt⟩
          · rcases hfd : fs d with dt | _ | _
            · exact absurd hfd (hfail dt)
            · simp
            · simp
          · rw [hfd]
            injection htt with hinj
            show decide (tt < dt) = true
            rw [hinj]
            exact decide_eq_true hlt
      · rintro ⟨d, hd, hf⟩
        refine Or.inr ⟨d, by simpa using hd, ?_⟩
        rcases hfd : fs d with dt | _ | _ <;> rw [hfd] at hf
        · exact Or.inr ⟨tt, dt, rfl, rfl, by simpa using hf⟩
        · exact Or.inl fun t => by simp [hfd]
        · exact Or.inl fun t => by simp [hfd]
      · rintro (hbad | ⟨d, hd, hcase⟩)
        · exact absurd rfl (hbad tt)
        · refine ⟨d, by simpa using hd, ?_⟩
          rcases hcase with hfail | ⟨tt2, dt, htt, hfd, hlt⟩
          · rcases hfd : fs d with dt | _ | _
            · exact absurd hfd (hfail dt)
            · simp
            · simp
          · rw [hfd]
            injection htt with hinj
            show decide (tt < dt) = true
            rw [hinj]
            exact decide_eq_true hlt
    · simp only [Outdated, h]
      exact iff_of_true trivial (Or.inl fun t => by simp [h])
    · simp only [Outdated, h]
      exact iff_of_true trivial (Or.inl fun t => by simp [h])
  · intro gd0 main deps G tt gt hG htt hG2 hlt
    rcases sources with _ | srcs <;> simp only [Outdated, htt] <;> rw [List.any_eq_true]
    · exact ⟨G, hG, by simp [hG2, hlt]⟩
    · exact ⟨G, List.mem_append_left _ hG, by simp [hG2, hlt]⟩

theorem claim_C3_amended_witness :
    Outdated (fun p => if p = "out" then StatResult.ok 5 else StatResult.ok 7)
      (registerGlobalDeps [] "make.go" ["go.mod"]) "out" (some []) = true :=
  (claim_C3_amended (fun p => if p = "out" then StatResult.ok 5 else StatResult.ok 7)
      (registerGlobalDeps [] "make.go" ["go.mod"]) "out" (some [])).2
    [] "make.go" ["go.mod"] "make.go" 5 7 (by decide) (by decide) (by decide) (by decide)

end Make

namespace Make

/-! ## Claims about `Env.String` -/

theorem charListLe_iff_lex : ∀ as bs : List Char,
    charListLe as bs = true ↔ ¬ List.Lex (· < ·) bs as := by
  intro as
  induction as with
  | nil =>
    intro bs
    cases bs with
    | nil => exact iff_of_true rfl fun h => nomatch h
    | cons b bs => exact iff_of_true rfl fun h => nomatch h
  | cons a as IH =>
    intro bs
    cases bs with
    | nil =>
      exact iff_of_false (by simp [charListLe]) fun h => h List.Lex.nil
    | cons b bs =>
      by_cases h1 : a < b
      · refine iff_of_true (by simp [charListLe, h1]) fun hlt => ?_
        cases hlt with
        | cons h => exact lt_irrefl a h1
        | rel h => exact lt_asymm h1 h
      · by_cases h2 : b < a
        · exact iff_of_false (by simp [charListLe, h1, h2]) fun h => h (List.Lex.rel h2)
        · have hab : a = b := le_antisymm (le_of_not_lt h2) (le_of_not_lt h1)
          subst hab
          have hiff := IH bs
          constructor
          · intro hle hlt
            cases hlt with
            | cons h => exact (hiff.mp (by simpa [charListLe, h1, h2] using hle)) h
            | rel h => exact lt_irrefl a h
          · intro hn
            have hcl : charListLe as bs = true :=
              hiff.mpr fun htl => hn (List.Lex.cons htl)
            simpa [charListLe, h1, h2] using hcl

theorem strLeB_iff (a b : String) : strLeB a b = true ↔ a ≤ b := by
  have h := charListLe_iff_lex a.data b.data
  constructor
  · intro hh hba
    exact h.mp hh (String.lt_iff_toList_lt.mp hba)
  · intro hba
    exact h.mpr fun hlex => hba (String.lt_iff_toList_lt.mpr hlex)

instance : IsTotal String (fun a b => strLeB a b = true) :=
  ⟨fun a b => by
    rcases le_total a b with h | h
    · exact Or.inl ((strLeB_iff a b).mpr h)
    · exact Or.inr ((strLeB_iff b a).mpr h)⟩

instance : IsTrans String (fun a b => strLeB a b = true) :=
  ⟨fun a b c hab hbc =>
    (strLeB_iff a c).mpr (le_trans ((strLeB_iff a b).mp hab) ((strLeB_iff b c).mp hbc))⟩

instance : IsAntisymm String (fun a b => strLeB a b = true) :=
  ⟨fun a b hab hba => le_antisymm ((strLeB_iff a b).mp hab) ((strLeB_iff b a).mp hba)⟩

/-- C8 counterexample: with keys "a" and "a0" (and empty values), the code
sorts the rendered pair strings, and since the character 0 precedes the
character = lexicographically, the pair of key "a0" is printed before the
pair of key "a" — not the lexicographic key order, which the spec-side
rendering `envStringSpecKeyOrder` produces. -/
theorem claim_C8_counterexample :
    envString [("a", ""), ("a0", "")] = "a0= a=" ∧
    envStringSpecKeyOrder [("a", ""), ("a0", "")] = "a= a0=" ∧
    envString [("a", ""), ("a0", "")] ≠ envStringSpecKeyOrder [("a", ""), ("a0", "")] :=
  ⟨by decide, by decide, by decide⟩

/-- C8 (amended): `Env.String` renders the key=value pairs sorted
lexicographically as whole rendered pair strings (which is key order only
when it agrees with pair order), and the rendering is deterministic: any
two orderings of the same mapping render to the same string. -/
theorem claim_C8_envstring (env : List (String × String)) :
    (∃ ps, List.Perm ps (env.map renderPair) ∧ ps.Sorted (· ≤ ·) ∧
      envString env = String.intercalate " " ps) ∧
    (∀ env2, List.Perm env env2 → envString env = envString env2) := by
  constructor
  · refine ⟨List.insertionSort (fun a b => strLeB a b = true) (env.map renderPair),
      List.perm_insertionSort _ _, ?_, rfl⟩
    exact (List.sorted_insertionSort _ _).imp fun h => (strLeB_iff _ _).mp h
  · intro env2 hp
    unfold envString
    congr 1
    have hperm : List.Perm
        (List.insertionSort (fun a b => strLeB a b = true) (env.map renderPair))
        (List.insertionSort (fun a b => strLeB a b = true) (env2.map renderPair)) :=
      ((List.perm_insertionSort _ _).trans (hp.map renderPair)).trans
        (List.perm_insertionSort _ _).symm
    exact List.eq_of_perm_of_sorted hperm (List.sorted_insertionSort _ _)
      (List.sorted_insertionSort _ _)

theorem claim_C8_envstring_witness :
    envString [("K", "v"), ("A", "b")] = envString [("A", "b"), ("K", "v")] :=
  (claim_C8_envstring [("K", "v"), ("A", "b")]).2 [("A", "b"), ("K", "v")]
    (List.Perm.swap ("A", "b") ("K", "v") [])

end Make

namespace Make

/-! ## Claims about `maybeQuote` -/

theorem firstIdx_eq_none_iff (p : Char → Bool) :
    ∀ cs : List Char, firstIdx p cs = none ↔ ∀ c ∈ cs, p c = false := by
  intro cs
  induction cs with
  | nil => simp [firstIdx]
  | cons c rest IH =>
    by_cases hp : p c <;> simp [firstIdx, hp, IH]

theorem firstIdx_some_decomp (p : Char → Bool) :
    ∀ (cs : List Char) (i : Nat), firstIdx p cs = some i →
      ∃ pre c0 post, cs = pre ++ c0 :: post ∧ pre.length = i ∧ p c0 = true ∧
        ∀ x ∈ pre, p x = false := by
  intro cs
  induction cs with
  | nil =>
    intro i h
    exact absurd h (by simp [firstIdx])
  | cons c rest IH =>
    intro i h
    by_cases hp : p c
    · rw [firstIdx, if_pos hp] at h
      obtain rfl : 0 = i := by simpa using h
      exact ⟨[], c, rest, rfl, rfl, hp, by simp⟩
    · rw [firstIdx, if_neg hp] at h
      rcases hm : firstIdx p rest with _ | j <;> rw [hm] at h
      · exact absurd h (by simp)
      · simp only [Option.map_some', Option.some.injEq] at h
        obtain ⟨pre, c0, post, hcs, hlen, hp0, hall⟩ := IH j hm
        refine ⟨c :: pre, c0, post, by simp [hcs], by simp [hlen, h], hp0, ?_⟩
        intro x hx
        rcases List.mem_cons.mp hx with rfl | hx
        · simpa using hp
        · exact hall x hx

theorem firstIdx_append (p : Char → Bool) (pre : List Char) (c0 : Char) (post : List Char)
    (hc : p c0 = true) (hpre : ∀ x ∈ pre, p x = false) :
    firstIdx p (pre ++ c0 :: post) = some pre.length := by
  induction pre with
  | nil => simp [firstIdx, hc]
  | cons a rest IH =>
    have ha : p a = false := hpre a (List.mem_cons_self _ _)
    simp [firstIdx, ha, IH fun x hx => hpre x (List.mem_cons_of_mem _ hx)]

theorem firstIdx_isSome_of_mem (p : Char → Bool) (c0 : Char) :
    ∀ cs : List Char, c0 ∈ cs → p c0 = true → ∃ i, firstIdx p cs = some i := by
  intro cs
  induction cs with
  | nil =>
    intro h _
    exact absurd h (List.not_mem_nil c0)
  | cons c rest IH =>
    intro hm hp0
    by_cases hp : p c
    · exact ⟨0, by simp [firstIdx, hp]⟩
    · rcases List.mem_cons.mp hm with rfl | hm2
      · exact absurd hp0 (by simp [hp])
      · obtain ⟨i, hi⟩ := IH hm2 hp0
        exact ⟨i + 1, by simp [firstIdx, hp, hi]⟩

theorem lastIdx_some_decomp (p : Char → Bool) (cs : List Char) (i : Nat)
    (h : lastIdx p cs = some i) :
    ∃ pre c0 post, cs = pre ++ c0 :: post ∧ pre.length = i ∧ p c0 = true ∧
      ∀ x ∈ post, p x = false := by
  unfold lastIdx at h
  rcases hm : firstIdx p cs.reverse with _ | j <;> rw [hm] at h
  · exact absurd h (by simp)
  · simp only [Option.some.injEq] at h
    obtain ⟨preR, c0, postR, hcsR, hlenR, hp0, hallR⟩ := firstIdx_some_decomp p cs.reverse j hm
    have hlen : cs.length = preR.length + (postR.length + 1) := by
      have h2 := congrArg List.length hcsR
      simpa using h2
    refine ⟨postR.reverse, c0, preR.reverse, ?_, ?_, hp0, ?_⟩
    · have h2 := congrArg List.reverse hcsR
      simpa [List.reverse_append] using h2
    · simp only [List.length_reverse]
      omega
    · intro x hx
      exact hallR x (by simpa using hx)

theorem lastIdx_isSome_of_mem (p : Char → Bool) (c0 : Char) (cs : List Char)
    (hm : c0 ∈ cs) (hp0 : p c0 = true) : ∃ i, lastIdx p cs = some i := by
  obtain ⟨j, hj⟩ := firstIdx_isSome_of_mem p c0 cs.reverse (by simpa using hm) hp0
  exact ⟨cs.length - 1 - j, by unfold lastIdx; rw [hj]⟩

theorem mem_of_lt_decomp (cs pre1 post1 pre2 post2 : List Char) (c1 c2 : Char)
    (h1 : cs = pre1 ++ c1 :: post1) (h2 : cs = pre2 ++ c2 :: post2)
    (hlt : pre1.length < pre2.length) : c1 ∈ pre2 := by
  have htake : pre2 = cs.take pre2.length := by
    rw [h2]
    exact (List.take_left' rfl).symm
  rw [h1, List.take_append_eq_append_take] at htake
  have hp1 : pre1.take pre2.length = pre1 := List.take_of_length_le (le_of_lt hlt)
  rw [hp1] at htake
  have hk : pre2.length - pre1.length = (pre2.length - pre1.length - 1) + 1 := by omega
  rw [hk, List.take_succ_cons] at htake
  rw [htake]
  exact List.mem_append_right _ (List.mem_cons_self _ _)

theorem decomp_eq_len (pre1 post1 pre2 post2 : List Char) (c1 c2 : Char)
    (h : pre1 ++ c1 :: post1 = pre2 ++ c2 :: post2) (hlen : pre1.length = pre2.length) :
    pre1 = pre2 ∧ c1 = c2 ∧ post1 = post2 := by
  obtain ⟨ha, hb⟩ := List.append_inj h hlen
  injection hb with hc hd
  exact ⟨ha, hc, hd⟩

end Make

namespace Make

theorem mq_single_quote (s : String) (hq : '\'' ∈ s.data) :
    maybeQuote s = String.mk (goQuoteChars s.data) := by
  unfold maybeQuote mqChars
  rw [if_pos (show s.data.contains '\'' = true by simpa using hq)]

theorem mq_bare (s : String) (hq : '\'' ∉ s.data) (hdq : '"' ∉ s.data)
    (hsp : ' ' ∉ s.data) : maybeQuote s = s := by
  have hcont : s.data.contains '\'' = false := by simpa using hq
  have hcount : s.data.count '"' = 0 := List.count_eq_zero.mpr hdq
  have hnone : firstIdx (fun c => c = ' ') s.data = none :=
    (firstIdx_eq_none_iff _ _).mpr fun c hc => decide_eq_false fun he => hsp (he ▸ hc)
  unfold maybeQuote mqChars
  rw [if_neg (show ¬ s.data.contains '\'' = true by simpa using hq), if_pos hcount, hnone]

theorem mq_space_whole (s : String) (pre post : List Char) (hq : '\'' ∉ s.data)
    (hdq : '"' ∉ s.data) (hsd : s.data = pre ++ ' ' :: post)
    (hpre_sp : ' ' ∉ pre) (hpre_eq : '=' ∉ pre) :
    maybeQuote s = String.mk ('"' :: (s.data ++ ['"'])) := by
  have hcont : s.data.contains '\'' = false := by simpa using hq
  have hcount : s.data.count '"' = 0 := List.count_eq_zero.mpr hdq
  have hsp : firstIdx (fun c => c = ' ') s.data = some pre.length := by
    rw [hsd]
    exact firstIdx_append _ _ _ _ (by decide)
      fun x hx => decide_eq_false fun he => hpre_sp (he ▸ hx)
  rcases hmeq : firstIdx (fun c => c = '=') s.data with _ | e
  · unfold maybeQuote mqChars
    rw [if_neg (show ¬ s.data.contains '\'' = true by simpa using hq), if_pos hcount, hsp, hmeq]
  · obtain ⟨preE, c2, postE, hsd2, hlen2, hp2, hall2⟩ := firstIdx_some_decomp _ _ _ hmeq
    have hc2 : c2 = '=' := of_decide_eq_true hp2
    subst hc2
    have hlt : pre.length < e := by
      rcases Nat.lt_trichotomy e pre.length with h | h | h
      · exact absurd (mem_of_lt_decomp s.data preE postE pre post '=' ' ' hsd2 hsd
          (by omega)) hpre_eq
      · obtain ⟨_, hc, _⟩ := decomp_eq_len preE postE pre post '=' ' '
          (hsd2.symm.trans hsd) (by omega)
        exact absurd hc (by decide)
      · exact h
    unfold maybeQuote mqChars
    rw [if_neg (show ¬ s.data.contains '\'' = true by simpa using hq), if_pos hcount, hsp, hmeq]
    show String.mk (if pre.length < e then '"' :: (s.data ++ ['"'])
      else s.data.take (e + 1) ++ '"' :: (s.data.drop (e + 1) ++ ['"'])) =
      String.mk ('"' :: (s.data ++ ['"']))
    rw [if_pos hlt]

theorem mq_space_value (s : String) (pre post : List Char) (hq : '\'' ∉ s.data)
    (hdq : '"' ∉ s.data) (hsd : s.data = pre ++ '=' :: post)
    (hpre_eq : '=' ∉ pre) (hpre_sp : ' ' ∉ pre) (hpost_sp : ' ' ∈ post) :
    maybeQuote s = String.mk (pre ++ '=' :: '"' :: (post ++ ['"'])) := by
  have hcont : s.data.contains '\'' = false := by simpa using hq
  have hcount : s.data.count '"' = 0 := List.count_eq_zero.mpr hdq
  have hmeq : firstIdx (fun c => c = '=') s.data = some pre.length := by
    rw [hsd]
    exact firstIdx_append _ _ _ _ (by decide)
      fun x hx => decide_eq_false fun he => hpre_eq (he ▸ hx)
  have hspmem : ' ' ∈ s.data := by
    rw [hsd]
    exact List.mem_append_right _ (List.mem_cons_of_mem _ hpost_sp)
  obtain ⟨sp, hmsp⟩ := firstIdx_isSome_of_mem (fun c => c = ' ') ' ' s.data hspmem (by decide)
  obtain ⟨preS, cS, postS, hsdS, hlenS, hpS, hallS⟩ := firstIdx_some_decomp _ _ _ hmsp
  have hcS : cS = ' ' := of_decide_eq_true hpS
  subst hcS
  have hnlt : ¬ (sp < pre.length) := fun hlt2 =>
    hpre_sp (mem_of_lt_decomp s.data preS postS pre post ' ' '=' hsdS hsd (by omega))
  have ht : s.data.take (pre.length + 1) = pre ++ ['='] := by
    rw [hsd, show pre ++ '=' :: post = (pre ++ ['=']) ++ post from by simp]
    exact List.take_left' (by simp)
  have hd : s.data.drop (pre.length + 1) = post := by
    rw [hsd, show pre ++ '=' :: post = (pre ++ ['=']) ++ post from by simp]
    exact List.drop_left' (by simp)
  unfold maybeQuote mqChars
  rw [if_neg (show ¬ s.data.contains '\'' = true by simpa using hq), if_pos hcount, hmsp, hmeq]
  show String.mk (if sp < pre.length then '"' :: (s.data ++ ['"'])
    else s.data.take (pre.length + 1) ++ '"' :: (s.data.drop (pre.length + 1) ++ ['"'])) =
    String.mk (pre ++ '=' :: '"' :: (post ++ ['"']))
  rw [if_neg hnlt, ht, hd]
  simp

end Make

namespace Make

theorem mq_dquote (s : String) (hq : '\'' ∉ s.data) (hdq : '"' ∈ s.data) :
    ∃ pre mid post, s.data = pre ++ mid ++ post ∧ '"' ∉ pre ∧ '"' ∉ post ∧
      maybeQuote s = String.mk (pre ++ '\'' :: (mid ++ '\'' :: post)) := by
  have hcont : ¬ s.data.contains '\'' = true := by simpa using hq
  have hcount0 : ¬ s.data.count '"' = 0 := fun h => (List.count_eq_zero.mp h) hdq
  by_cases hc2 : s.data.count '"' = 2
  · have hqs : isQuoteOrSpace '"' = true := by decide
    obtain ⟨b0, hb0⟩ := firstIdx_isSome_of_mem isQuoteOrSpace '"' s.data hdq hqs
    obtain ⟨l0, hl0⟩ := lastIdx_isSome_of_mem isQuoteOrSpace '"' s.data hdq hqs
    obtain ⟨preQ, cQ, postQ, hsdQ, hlenQ, hpQ, hallQ⟩ := firstIdx_some_decomp _ _ _ hb0
    obtain ⟨preL, cL, postL, hsdL, hlenL, hpL, hallL⟩ := lastIdx_some_decomp _ _ _ hl0
    have hb0l0 : b0 ≤ l0 := by
      by_contra hcon
      push_neg at hcon
      have hmem : cL ∈ preQ :=
        mem_of_lt_decomp s.data preL postL preQ postQ cL cQ hsdL hsdQ (by omega)
      exact absurd (hallQ cL hmem) (by simp [hpL])
    have hdropL : s.data.drop (l0 + 1) = postL := by
      rw [hsdL, show preL ++ cL :: postL = (preL ++ [cL]) ++ postL from by simp]
      exact List.drop_left' (by simp [hlenL])
    have hpost_noq : '"' ∉ s.data.drop (l0 + 1) := by
      rw [hdropL]
      intro hx
      exact absurd (hallL _ hx) (by decide)
    have hsplit : ∀ B : Nat, B ≤ l0 + 1 →
        s.data = s.data.take B ++ ((s.data.take (l0 + 1)).drop B ++ s.data.drop (l0 + 1)) := by
      intro B hB
      have h1 : s.data.take (l0 + 1) = s.data.take B ++ (s.data.take (l0 + 1)).drop B := by
        conv_lhs => rw [← List.take_append_drop B (s.data.take (l0 + 1))]
        rw [List.take_take, min_eq_left hB]
      conv_lhs => rw [← List.take_append_drop (l0 + 1) s.data, h1]
      exact List.append_assoc _ _ _
    have hpre_noq : ∀ B : Nat, B ≤ b0 → '"' ∉ s.data.take B := by
      intro B hB
      rw [hsdQ, List.take_append_of_le_length (by omega)]
      intro hx
      exact absurd (hallQ _ (List.take_subset _ _ hx)) (by decide)
    rcases hme : firstIdx (fun c => c = '=') s.data with _ | i
    · refine ⟨s.data.take b0, (s.data.take (l0 + 1)).drop b0, s.data.drop (l0 + 1),
        (hsplit b0 (by omega)).trans (List.append_assoc _ _ _).symm, hpre_noq b0 le_rfl, hpost_noq, ?_⟩
      unfold maybeQuote mqChars
      rw [if_neg hcont, if_neg hcount0, if_pos hc2, hb0, hl0, hme]
      rfl
    · by_cases hib : i < b0
      · refine ⟨s.data.take (i + 1), (s.data.take (l0 + 1)).drop (i + 1), s.data.drop (l0 + 1),
          (hsplit (i + 1) (by omega)).trans (List.append_assoc _ _ _).symm, hpre_noq (i + 1) (by omega), hpost_noq, ?_⟩
        unfold maybeQuote mqChars
        rw [if_neg hcont, if_neg hcount0, if_pos hc2, hb0, hl0, hme]
        show String.mk (s.data.take (if i < b0 then i + 1 else b0) ++
            '\'' :: ((s.data.take (l0 + 1)).drop (if i < b0 then i + 1 else b0) ++
              '\'' :: s.data.drop (l0 + 1))) = _
        rw [if_pos hib]
      · refine ⟨s.data.take b0, (s.data.take (l0 + 1)).drop b0, s.data.drop (l0 + 1),
          (hsplit b0 (by omega)).trans (List.append_assoc _ _ _).symm, hpre_noq b0 le_rfl, hpost_noq, ?_⟩
        unfold maybeQuote mqChars
        rw [if_neg hcont, if_neg hcount0, if_pos hc2, hb0, hl0, hme]
        show String.mk (s.data.take (if i < b0 then i + 1 else b0) ++
            '\'' :: ((s.data.take (l0 + 1)).drop (if i < b0 then i + 1 else b0) ++
              '\'' :: s.data.drop (l0 + 1))) = _
        rw [if_neg hib]
  · refine ⟨[], s.data, [], by simp, by simp, by simp, ?_⟩
    unfold maybeQuote mqChars
    rw [if_neg hcont, if_neg hcount0, if_neg hc2]
    simp

end Make

namespace Make

/-- C9 counterexample: an argument consisting of the letters d, o, n, t with
an apostrophe before the t contains no space and no double quote, yet it is
not printed bare: `maybeQuote` first checks for single quotes and routes
such arguments through `strconv.Quote`. -/
theorem claim_C9_counterexample :
    ' ' ∉ (String.mk ['d', 'o', 'n', '\'', 't']).data ∧
    '"' ∉ (String.mk ['d', 'o', 'n', '\'', 't']).data ∧
    maybeQuote (String.mk ['d', 'o', 'n', '\'', 't']) ≠
      String.mk ['d', 'o', 'n', '\'', 't'] :=
  ⟨by decide, by decide, by decide⟩

/-- C9 (amended): the log-line quoting of a command argument: an argument
containing a single quote is rendered with Go-syntax double-quoted escaping
(strconv.Quote); otherwise an argument containing no space and no double
quote is printed bare; an argument containing spaces but no quote
characters is wrapped in double quotes — around the whole argument when no
"=" precedes the first space, and, for a name=value argument whose first
"=" precedes the first space, around just the value portion; an argument
containing double quotes (but no single quote) has a single-quoted span
spliced in that covers every double quote. -/
theorem claim_C9_maybe_quote (s : String) :
    ('\'' ∈ s.data → maybeQuote s = String.mk (goQuoteChars s.data)) ∧
    ('\'' ∉ s.data → '"' ∉ s.data → ' ' ∉ s.data → maybeQuote s = s) ∧
    (∀ pre post, '\'' ∉ s.data → '"' ∉ s.data → s.data = pre ++ ' ' :: post →
      ' ' ∉ pre → '=' ∉ pre →
      maybeQuote s = String.mk ('"' :: (s.data ++ ['"']))) ∧
    (∀ pre post, '\'' ∉ s.data → '"' ∉ s.data → s.data = pre ++ '=' :: post →
      '=' ∉ pre → ' ' ∉ pre → ' ' ∈ post →
      maybeQuote s = String.mk (pre ++ '=' :: '"' :: (post ++ ['"']))) ∧
    ('\'' ∉ s.data → '"' ∈ s.data →
      ∃ pre mid post, s.data = pre ++ mid ++ post ∧ '"' ∉ pre ∧ '"' ∉ post ∧
        maybeQuote s = String.mk (pre ++ '\'' :: (mid ++ '\'' :: post))) :=
  ⟨mq_single_quote s,
   mq_bare s,
   fun pre post hq hdq hsd hps hpe => mq_space_whole s pre post hq hdq hsd hps hpe,
   fun pre post hq hdq hsd hpe hps hsp => mq_space_value s pre post hq hdq hsd hpe hps hsp,
   mq_dquote s⟩

theorem claim_C9_maybe_quote_witness :
    maybeQuote "abc" = "abc" ∧
    maybeQuote "a b" = String.mk ('"' :: ("a b".data ++ ['"'])) ∧
    maybeQuote "x=a b" = String.mk (['x'] ++ '=' :: '"' :: (['a', ' ', 'b'] ++ ['"'])) := by
  refine ⟨?_, ?_, ?_⟩
  · exact (claim_C9_maybe_quote "abc").2.1 (by decide) (by decide) (by decide)
  · exact (claim_C9_maybe_quote "a b").2.2.1 ['a'] ['b'] (by decide) (by decide) (by decide)
      (by decide) (by decide)
  · exact (claim_C9_maybe_quote "x=a b").2.2.2.1 ['x'] ['a', ' ', 'b'] (by decide) (by decide)
      (by decide) (by decide) (by decide) (by decide)

end Make
